import Mathlib

/-
Shallow embedding of src/PR3.py: a fixed-width instruction-set assembler
and interpreter.  Python strings are modelled as `List Char`, Python
dictionaries as association lists (insertion-ordered, unique keys, as
CPython dicts are), Python exceptions as an explicit error type carried
in `Except`.  Machine integers are `Nat` (Python ints are unbounded).
-/

set_option maxRecDepth 8000

-- Equality of Except values is decidable when both components are.
deriving instance DecidableEq for Except

/-- Conversion of a Lean string literal to the character-list model of a
Python string. -/
def chars (s : String) : List Char := s.toList

/-- Specification of one instruction: mnemonic name, numeric opcode code,
and the ordered field layout; each field is a name together with an
inclusive bit range lo..hi (Python class `InstructionSpec`). -/
structure InstructionSpec where
  name : String
  code : Nat
  fields : List (List Char × Nat × Nat)
deriving DecidableEq

/-- Field key "A". -/
def kA : List Char := ['A']

/-- Field key "B". -/
def kB : List Char := ['B']

/-- Field key "C". -/
def kC : List Char := ['C']

/-- Field key "D". -/
def kD : List Char := ['D']

/-- Field key "E". -/
def kE : List Char := ['E']

/-- The LOAD_CONST spec: code 57, fields A[0,5] B[6,19] C[20,47]. -/
def LOAD_CONST : InstructionSpec :=
  ⟨"LOAD_CONST", 57, [(kA, 0, 5), (kB, 6, 19), (kC, 20, 47)]⟩

/-- The LOAD_MEM spec: code 46, fields A[0,5] B[6,19] C[20,33]. -/
def LOAD_MEM : InstructionSpec :=
  ⟨"LOAD_MEM", 46, [(kA, 0, 5), (kB, 6, 19), (kC, 20, 33)]⟩

/-- The STORE_MEM spec: code 11, fields A[0,5] B[6,19] C[20,33]. -/
def STORE_MEM : InstructionSpec :=
  ⟨"STORE_MEM", 11, [(kA, 0, 5), (kB, 6, 19), (kC, 20, 33)]⟩

/-- The ROR spec: code 10, fields A[0,5] B[6,19] C[20,33] D[34,44] E[45,58]. -/
def ROR : InstructionSpec :=
  ⟨"ROR", 10, [(kA, 0, 5), (kB, 6, 19), (kC, 20, 33), (kD, 34, 44), (kE, 45, 58)]⟩

/-- The COMMANDS dict of src/PR3.py: mnemonic → spec, in insertion order. -/
def COMMANDS : List (List Char × InstructionSpec) :=
  [(chars ("LOAD_CONST"), LOAD_CONST), (chars ("LOAD_MEM"), LOAD_MEM),
   (chars ("STORE_MEM"), STORE_MEM), (chars ("ROR"), ROR)]

/-- COMMANDS.values(): the four specs in dict insertion order. -/
def COMMAND_SPECS : List InstructionSpec := COMMANDS.map Prod.snd

/-- Model of the Python exceptions raised by src/PR3.py.
`fieldOverflow f v` is the ValueError "Value {v} too large for field {f}"
from `encode_instruction`; `unknownOpcode c` the ValueError
"Unknown opcode: {c}" from `decode_instruction`; `truncatedWord` the
ValueError "Invalid binary file: instruction not 8 bytes" from
`load_binary`; `keyError` a Python KeyError (missing dict key);
`indexError` a Python IndexError (list index out of range); `valueError`
any other ValueError (failed `int()` parse or tuple unpacking);
`overflowError` the OverflowError from `int.to_bytes`. -/
inductive PyError where
  | fieldOverflow (field : List Char) (v : Nat)
  | unknownOpcode (code : Nat)
  | truncatedWord
  | keyError
  | indexError
  | valueError
  | overflowError
deriving DecidableEq

/-- The field-packing loop of `encode_instruction`: for each declared
field in order, look up its value (KeyError when absent), range-check it
against the field width (`if v >= (1 << width)`), and OR the shifted
value into the accumulator word. -/
def encodeFields : List (List Char × Nat × Nat) → List (List Char × Nat) → Nat →
    Except PyError Nat
  | [], _, word => .ok word
  | (field, lo, hi) :: rest, values, word =>
    match values.lookup field with
    | none => .error .keyError
    | some v =>
      if v ≥ 1 <<< (hi - lo + 1) then .error (.fieldOverflow field v)
      else encodeFields rest values (word ||| v <<< lo)

/-- Python `encode_instruction(spec, values)`: pack the field values into
a single word, accumulator initialized to 0. -/
def encode_instruction (spec : InstructionSpec) (values : List (List Char × Nat)) :
    Except PyError Nat :=
  encodeFields spec.fields values 0

/-- Python `decode_instruction(word)`: resolve the spec by scanning
COMMANDS.values() for one whose code equals `word & 0x3F` (ValueError
"Unknown opcode" on miss), then extract every declared field as
`(word >> lo) & ((1 << width) - 1)`. -/
def decode_instruction (word : Nat) :
    Except PyError (InstructionSpec × List (List Char × Nat)) :=
  let opcode := word &&& 0x3F
  match COMMAND_SPECS.find? (fun s => s.code == opcode) with
  | none => .error (.unknownOpcode opcode)
  | some spec =>
    .ok (spec, spec.fields.map (fun f =>
      (f.1, (word >>> f.2.1) &&& (1 <<< (f.2.2 - f.2.1 + 1) - 1))))

/-- Bit-packing bridge: OR-ing a shifted value into a small accumulator
is addition, because the bit ranges are disjoint. -/
theorem lor_shiftLeft_add {a : Nat} (b : Nat) {k : Nat} (h : a < 2 ^ k) :
    a ||| b <<< k = a + b * 2 ^ k := by
  rw [Nat.shiftLeft_eq, Nat.lor_comm, mul_comm, ← Nat.mul_add_lt_is_or h]
  omega

/-- Field-extraction bridge: shift-and-mask is division and remainder. -/
theorem extract_eq_div_mod (w lo k : Nat) :
    (w >>> lo) &&& (1 <<< k - 1) = w / 2 ^ lo % 2 ^ k := by
  rw [Nat.shiftRight_eq_div_pow, Nat.shiftLeft_eq, one_mul,
    Nat.and_pow_two_sub_one_eq_mod]

/-- The low six bits of a word are its remainder modulo 64. -/
theorem and_63_eq_mod (w : Nat) : w &&& 63 = w % 64 := by
  have h := Nat.and_pow_two_sub_one_eq_mod w 6
  norm_num at h
  exact h

/-- Shifting one left by k is the k-th power of two. -/
theorem one_shiftLeft (k : Nat) : 1 <<< k = 2 ^ k := by
  rw [Nat.shiftLeft_eq, one_mul]

/-- One successful step of the packing loop. -/
theorem encodeFields_cons_ok {f : List Char} {lo hi : Nat}
    {rest : List (List Char × Nat × Nat)} {values : List (List Char × Nat)}
    {word v : Nat} (hl : values.lookup f = some v)
    (hv : v < 2 ^ (hi - lo + 1)) :
    encodeFields ((f, lo, hi) :: rest) values word =
      encodeFields rest values (word ||| v <<< lo) := by
  simp only [encodeFields, hl]
  rw [if_neg (by rw [one_shiftLeft]; omega)]

/-- One overflowing step of the packing loop. -/
theorem encodeFields_cons_overflow {f : List Char} {lo hi : Nat}
    {rest : List (List Char × Nat × Nat)} {values : List (List Char × Nat)}
    {word v : Nat} (hl : values.lookup f = some v)
    (hv : 2 ^ (hi - lo + 1) ≤ v) :
    encodeFields ((f, lo, hi) :: rest) values word =
      .error (.fieldOverflow f v) := by
  simp only [encodeFields, hl]
  rw [if_pos (by rw [one_shiftLeft]; omega)]

/-- Evaluation of decode on a word whose low six bits are 57. -/
theorem decode_eval_57 {word : Nat} (h : word % 64 = 57) :
    decode_instruction word = .ok (LOAD_CONST,
      [(kA, word % 64), (kB, word / 64 % 16384), (kC, word / 1048576 % 268435456)]) := by
  have hop : word &&& 0x3F = 57 := by rw [and_63_eq_mod]; exact h
  have hfind : COMMAND_SPECS.find? (fun s => s.code == 57) = some LOAD_CONST := by decide
  simp only [decode_instruction, hop, hfind]
  norm_num [extract_eq_div_mod, LOAD_CONST]

/-- Evaluation of decode on a word whose low six bits are 46. -/
theorem decode_eval_46 {word : Nat} (h : word % 64 = 46) :
    decode_instruction word = .ok (LOAD_MEM,
      [(kA, word % 64), (kB, word / 64 % 16384), (kC, word / 1048576 % 16384)]) := by
  have hop : word &&& 0x3F = 46 := by rw [and_63_eq_mod]; exact h
  have hfind : COMMAND_SPECS.find? (fun s => s.code == 46) = some LOAD_MEM := by decide
  simp only [decode_instruction, hop, hfind]
  norm_num [extract_eq_div_mod, LOAD_MEM]

/-- Evaluation of decode on a word whose low six bits are 11. -/
theorem decode_eval_11 {word : Nat} (h : word % 64 = 11) :
    decode_instruction word = .ok (STORE_MEM,
      [(kA, word % 64), (kB, word / 64 % 16384), (kC, word / 1048576 % 16384)]) := by
  have hop : word &&& 0x3F = 11 := by rw [and_63_eq_mod]; exact h
  have hfind : COMMAND_SPECS.find? (fun s => s.code == 11) = some STORE_MEM := by decide
  simp only [decode_instruction, hop, hfind]
  norm_num [extract_eq_div_mod, STORE_MEM]

/-- Evaluation of decode on a word whose low six bits are 10. -/
theorem decode_eval_10 {word : Nat} (h : word % 64 = 10) :
    decode_instruction word = .ok (ROR,
      [(kA, word % 64), (kB, word / 64 % 16384), (kC, word / 1048576 % 16384),
       (kD, word / 17179869184 % 2048), (kE, word / 35184372088832 % 16384)]) := by
  have hop : word &&& 0x3F = 10 := by rw [and_63_eq_mod]; exact h
  have hfind : COMMAND_SPECS.find? (fun s => s.code == 10) = some ROR := by decide
  simp only [decode_instruction, hop, hfind]
  norm_num [extract_eq_div_mod, ROR]

/-- Evaluation of encode on a LOAD_CONST assignment in declared order. -/
theorem encode_LOAD_CONST_eval {a b c : Nat} (ha : a < 64) (hb : b < 16384)
    (hc : c < 268435456) :
    encode_instruction LOAD_CONST [(kA, a), (kB, b), (kC, c)] =
      .ok (a + b * 64 + c * 1048576) := by
  show encodeFields [(kA, 0, 5), (kB, 6, 19), (kC, 20, 47)] [(kA, a), (kB, b), (kC, c)] 0 = _
  rw [encodeFields_cons_ok (by rfl) (by norm_num; omega),
    encodeFields_cons_ok (by rfl) (by norm_num; omega),
    encodeFields_cons_ok (by rfl) (by norm_num; omega)]
  simp only [encodeFields, Nat.shiftLeft_zero, Nat.zero_or]
  rw [lor_shiftLeft_add b (show a < 2 ^ 6 by omega),
    lor_shiftLeft_add c (show a + b * 2 ^ 6 < 2 ^ 20 by norm_num; omega)]
  norm_num

/-- Evaluation of encode on a LOAD_MEM assignment in declared order. -/
theorem encode_LOAD_MEM_eval {a b c : Nat} (ha : a < 64) (hb : b < 16384)
    (hc : c < 16384) :
    encode_instruction LOAD_MEM [(kA, a), (kB, b), (kC, c)] =
      .ok (a + b * 64 + c * 1048576) := by
  show encodeFields [(kA, 0, 5), (kB, 6, 19), (kC, 20, 33)] [(kA, a), (kB, b), (kC, c)] 0 = _
  rw [encodeFields_cons_ok (by rfl) (by norm_num; omega),
    encodeFields_cons_ok (by rfl) (by norm_num; omega),
    encodeFields_cons_ok (by rfl) (by norm_num; omega)]
  simp only [encodeFields, Nat.shiftLeft_zero, Nat.zero_or]
  rw [lor_shiftLeft_add b (show a < 2 ^ 6 by omega),
    lor_shiftLeft_add c (show a + b * 2 ^ 6 < 2 ^ 20 by norm_num; omega)]
  norm_num

/-- Evaluation of encode on a STORE_MEM assignment in declared order. -/
theorem encode_STORE_MEM_eval {a b c : Nat} (ha : a < 64) (hb : b < 16384)
    (hc : c < 16384) :
    encode_instruction STORE_MEM [(kA, a), (kB, b), (kC, c)] =
      .ok (a + b * 64 + c * 1048576) := by
  show encodeFields [(kA, 0, 5), (kB, 6, 19), (kC, 20, 33)] [(kA, a), (kB, b), (kC, c)] 0 = _
  rw [encodeFields_cons_ok (by rfl) (by norm_num; omega),
    encodeFields_cons_ok (by rfl) (by norm_num; omega),
    encodeFields_cons_ok (by rfl) (by norm_num; omega)]
  simp only [encodeFields, Nat.shiftLeft_zero, Nat.zero_or]
  rw [lor_shiftLeft_add b (show a < 2 ^ 6 by omega),
    lor_shiftLeft_add c (show a + b * 2 ^ 6 < 2 ^ 20 by norm_num; omega)]
  norm_num

/-- Evaluation of encode on a ROR assignment in declared order. -/
theorem encode_ROR_eval {a b c d e : Nat} (ha : a < 64) (hb : b < 16384)
    (hc : c < 16384) (hd : d < 2048) (he : e < 16384) :
    encode_instruction ROR [(kA, a), (kB, b), (kC, c), (kD, d), (kE, e)] =
      .ok (a + b * 64 + c * 1048576 + d * 17179869184 + e * 35184372088832) := by
  show encodeFields [(kA, 0, 5), (kB, 6, 19), (kC, 20, 33), (kD, 34, 44), (kE, 45, 58)]
    [(kA, a), (kB, b), (kC, c), (kD, d), (kE, e)] 0 = _
  rw [encodeFields_cons_ok (by rfl) (by norm_num; omega),
    encodeFields_cons_ok (by rfl) (by norm_num; omega),
    encodeFields_cons_ok (by rfl) (by norm_num; omega),
    encodeFields_cons_ok (by rfl) (by norm_num; omega),
    encodeFields_cons_ok (by rfl) (by norm_num; omega)]
  simp only [encodeFields, Nat.shiftLeft_zero, Nat.zero_or]
  rw [lor_shiftLeft_add b (show a < 2 ^ 6 by omega),
    lor_shiftLeft_add c (show a + b * 2 ^ 6 < 2 ^ 20 by norm_num; omega),
    lor_shiftLeft_add d (show a + b * 2 ^ 6 + c * 2 ^ 20 < 2 ^ 34 by norm_num; omega),
    lor_shiftLeft_add e
      (show a + b * 2 ^ 6 + c * 2 ^ 20 + d * 2 ^ 34 < 2 ^ 45 by norm_num; omega)]
  norm_num

/-- An assignment whose key sequence is A, B, C is a three-entry list. -/
theorem values_shape3 {values : List (List Char × Nat)}
    (h : values.map Prod.fst = [kA, kB, kC]) :
    ∃ a b c, values = [(kA, a), (kB, b), (kC, c)] := by
  rcases values with _ | ⟨⟨k1, a⟩, _ | ⟨⟨k2, b⟩, _ | ⟨⟨k3, c⟩, rest⟩⟩⟩ <;> simp_all

/-- An assignment whose key sequence is A, B, C, D, E is a five-entry list. -/
theorem values_shape5 {values : List (List Char × Nat)}
    (h : values.map Prod.fst = [kA, kB, kC, kD, kE]) :
    ∃ a b c d e, values = [(kA, a), (kB, b), (kC, c), (kD, d), (kE, e)] := by
  rcases values with _ | ⟨⟨k1, a⟩, _ | ⟨⟨k2, b⟩, _ | ⟨⟨k3, c⟩, _ | ⟨⟨k4, d⟩, _ | ⟨⟨k5, e⟩, rest⟩⟩⟩⟩⟩ <;> simp_all

/-- An assignment of the declared fields of a spec, in declared order,
each value respecting the declared field width. -/
def widthsRespected (spec : InstructionSpec) (values : List (List Char × Nat)) : Prop :=
  values.map Prod.fst = spec.fields.map (fun f => f.1) ∧
  ∀ p ∈ values.zip spec.fields, p.1.2 < 2 ^ (p.2.2.2 - p.2.2.1 + 1)

/-- Shared workhorse: for any of the four specs and any width-respecting
assignment whose A value is the spec's code, encoding succeeds, the low
six bits of the word are the code, and decoding recovers the pair. -/
theorem encode_eval_of_wellFormed (spec : InstructionSpec) (hs : spec ∈ COMMAND_SPECS)
    (values : List (List Char × Nat)) (hv : widthsRespected spec values)
    (hA : values.lookup kA = some spec.code) :
    ∃ w, encode_instruction spec values = .ok w ∧ w % 64 = spec.code ∧
      decode_instruction w = .ok (spec, values) := by
  have hs' : spec = LOAD_CONST ∨ spec = LOAD_MEM ∨ spec = STORE_MEM ∨ spec = ROR := by
    simpa [COMMAND_SPECS, COMMANDS] using hs
  obtain ⟨hkeys, hzip⟩ := hv
  rcases hs' with rfl | rfl | rfl | rfl
  · obtain ⟨a, b, c, rfl⟩ := values_shape3 (by simpa [LOAD_CONST] using hkeys)
    have ha : a = 57 := by simpa [LOAD_CONST] using hA
    subst ha
    have hb : b < 16384 := by
      have := hzip ((kB, b), (kB, 6, 19)) (by simp [LOAD_CONST])
      norm_num at this; exact this
    have hc : c < 268435456 := by
      have := hzip ((kC, c), (kC, 20, 47)) (by simp [LOAD_CONST])
      norm_num at this; exact this
    refine ⟨_, encode_LOAD_CONST_eval (by norm_num) hb hc, by simp [LOAD_CONST]; omega, ?_⟩
    rw [decode_eval_57 (by omega)]
    simp
    omega
  · obtain ⟨a, b, c, rfl⟩ := values_shape3 (by simpa [LOAD_MEM] using hkeys)
    have ha : a = 46 := by simpa [LOAD_MEM] using hA
    subst ha
    have hb : b < 16384 := by
      have := hzip ((kB, b), (kB, 6, 19)) (by simp [LOAD_MEM])
      norm_num at this; exact this
    have hc : c < 16384 := by
      have := hzip ((kC, c), (kC, 20, 33)) (by simp [LOAD_MEM])
      norm_num at this; exact this
    refine ⟨_, encode_LOAD_MEM_eval (by norm_num) hb hc, by simp [LOAD_MEM]; omega, ?_⟩
    rw [decode_eval_46 (by omega)]
    simp
    omega
  · obtain ⟨a, b, c, rfl⟩ := values_shape3 (by simpa [STORE_MEM] using hkeys)
    have ha : a = 11 := by simpa [STORE_MEM] using hA
    subst ha
    have hb : b < 16384 := by
      have := hzip ((kB, b), (kB, 6, 19)) (by simp [STORE_MEM])
      norm_num at this; exact this
    have hc : c < 16384 := by
      have := hzip ((kC, c), (kC, 20, 33)) (by simp [STORE_MEM])
      norm_num at this; exact this
    refine ⟨_, encode_STORE_MEM_eval (by norm_num) hb hc, by simp [STORE_MEM]; omega, ?_⟩
    rw [decode_eval_11 (by omega)]
    simp
    omega
  · obtain ⟨a, b, c, d, e, rfl⟩ := values_shape5 (by simpa [ROR] using hkeys)
    have ha : a = 10 := by simpa [ROR] using hA
    subst ha
    have hb : b < 16384 := by
      have := hzip ((kB, b), (kB, 6, 19)) (by simp [ROR])
      norm_num at this; exact this
    have hc : c < 16384 := by
      have := hzip ((kC, c), (kC, 20, 33)) (by simp [ROR])
      norm_num at this; exact this
    have hd : d < 2048 := by
      have := hzip ((kD, d), (kD, 34, 44)) (by simp [ROR])
      norm_num at this; exact this
    have he : e < 16384 := by
      have := hzip ((kE, e), (kE, 45, 58)) (by simp [ROR])
      norm_num at this; exact this
    refine ⟨_, encode_ROR_eval (by norm_num) hb hc hd he, by simp [ROR]; omega, ?_⟩
    rw [decode_eval_10 (by omega)]
    simp
    omega

/-- Claim C1 as stated is false: the width-respecting assignment
A=46, B=0, C=0 for LOAD_CONST encodes to word 46, which decodes as a
LOAD_MEM instruction, not the original spec and values. -/
theorem c1_roundtrip_counterexample :
    ¬ (∀ spec ∈ COMMAND_SPECS, ∀ values : List (List Char × Nat),
      widthsRespected spec values →
      ∃ w, encode_instruction spec values = .ok w ∧
        decode_instruction w = .ok (spec, values)) := by
  intro hclaim
  obtain ⟨w, hw, hd⟩ := hclaim LOAD_CONST (by decide)
    [(kA, 46), (kB, 0), (kC, 0)] (by constructor <;> decide)
  have he : encode_instruction LOAD_CONST [(kA, 46), (kB, 0), (kC, 0)] = .ok 46 := by
    decide
  rw [he] at hw
  injection hw with hw
  subst hw
  exact absurd hd (by decide)

/-- C1 (amended): for every spec in the four-opcode table and every
field assignment that assigns each declared field (in declared order) a
value respecting its width, with field A assigned the spec's own code,
decoding the encoded word returns the same spec and the same values. -/
theorem c1_roundtrip (spec : InstructionSpec) (hs : spec ∈ COMMAND_SPECS)
    (values : List (List Char × Nat)) (hv : widthsRespected spec values)
    (hA : values.lookup kA = some spec.code) :
    ∃ w, encode_instruction spec values = .ok w ∧
      decode_instruction w = .ok (spec, values) := by
  obtain ⟨w, h1, _, h3⟩ := encode_eval_of_wellFormed spec hs values hv hA
  exact ⟨w, h1, h3⟩

/-- Witness for c1_roundtrip at LOAD_CONST with B=5, C=100. -/
theorem c1_roundtrip_witness :
    ∃ w, encode_instruction LOAD_CONST [(kA, 57), (kB, 5), (kC, 100)] = .ok w ∧
      decode_instruction w = .ok (LOAD_CONST, [(kA, 57), (kB, 5), (kC, 100)]) :=
  c1_roundtrip LOAD_CONST (by decide) [(kA, 57), (kB, 5), (kC, 100)]
    (by constructor <;> decide) (by decide)

/-- Claim C5 as stated is false: the width-respecting LOAD_CONST
assignment A=11, B=0, C=0 encodes to word 11, whose low six bits are 11,
not LOAD_CONST's code 57. -/
theorem c5_opcode_isolation_counterexample :
    ¬ (∀ spec ∈ COMMAND_SPECS, ∀ values : List (List Char × Nat),
      widthsRespected spec values →
      ∃ w, encode_instruction spec values = .ok w ∧ w &&& 0x3F = spec.code) := by
  intro hclaim
  obtain ⟨w, hw, hx⟩ := hclaim LOAD_CONST (by decide)
    [(kA, 11), (kB, 0), (kC, 0)] (by constructor <;> decide)
  have he : encode_instruction LOAD_CONST [(kA, 11), (kB, 0), (kC, 0)] = .ok 11 := by
    decide
  rw [he] at hw
  injection hw with hw
  subst hw
  exact absurd hx (by decide)

/-- C5 (amended): for every spec and every width-respecting assignment
whose A value is the spec's code — as the assembler always injects —
the low six bits of the encoded word equal the spec's opcode code. -/
theorem c5_opcode_isolation (spec : InstructionSpec) (hs : spec ∈ COMMAND_SPECS)
    (values : List (List Char × Nat)) (hv : widthsRespected spec values)
    (hA : values.lookup kA = some spec.code) :
    ∃ w, encode_instruction spec values = .ok w ∧ w &&& 0x3F = spec.code := by
  obtain ⟨w, h1, h2, _⟩ := encode_eval_of_wellFormed spec hs values hv hA
  refine ⟨w, h1, ?_⟩
  rw [and_63_eq_mod]
  exact h2

/-- Witness for c5_opcode_isolation at STORE_MEM with B=3, C=9. -/
theorem c5_opcode_isolation_witness :
    ∃ w, encode_instruction STORE_MEM [(kA, 11), (kB, 3), (kC, 9)] = .ok w ∧
      w &&& 0x3F = STORE_MEM.code :=
  c5_opcode_isolation STORE_MEM (by decide) [(kA, 11), (kB, 3), (kC, 9)]
    (by constructor <;> decide) (by decide)

/-- If every declared field is assigned an in-range value, the packing
loop succeeds. -/
theorem encodeFields_ok_of_inRange :
    ∀ (fields : List (List Char × Nat × Nat)) (values : List (List Char × Nat)) (word : Nat),
    (∀ f lo hi, (f, lo, hi) ∈ fields → ∃ v, values.lookup f = some v ∧ v < 2 ^ (hi - lo + 1)) →
    ∃ w, encodeFields fields values word = .ok w
  | [], _, word, _ => ⟨word, rfl⟩
  | (f, lo, hi) :: rest, values, word, h => by
    obtain ⟨v, hl, hv⟩ := h f lo hi (by simp)
    rw [encodeFields_cons_ok hl hv]
    exact encodeFields_ok_of_inRange rest values _
      (fun g lo' hi' hm => h g lo' hi' (by simp [hm]))

/-- If every declared field is assigned but some assigned value is out of
range, the packing loop fails with the overflow ValueError. -/
theorem encodeFields_overflow_of_outOfRange :
    ∀ (fields : List (List Char × Nat × Nat)) (values : List (List Char × Nat)) (word : Nat),
    (∀ f lo hi, (f, lo, hi) ∈ fields → ∃ v, values.lookup f = some v) →
    (∃ f lo hi v, (f, lo, hi) ∈ fields ∧ values.lookup f = some v ∧ 2 ^ (hi - lo + 1) ≤ v) →
    ∃ f x, encodeFields fields values word = .error (.fieldOverflow f x)
  | [], _, _, _, hbad => by
    obtain ⟨f, lo, hi, v, hm, _⟩ := hbad
    exact absurd hm (List.not_mem_nil _)
  | (f, lo, hi) :: rest, values, word, hall, hbad => by
    obtain ⟨v, hl⟩ := hall f lo hi (by simp)
    by_cases hv : v < 2 ^ (hi - lo + 1)
    · rw [encodeFields_cons_ok hl hv]
      apply encodeFields_overflow_of_outOfRange rest values _
        (fun g lo' hi' hm => hall g lo' hi' (by simp [hm]))
      obtain ⟨g, lo', hi', u, hm, hlu, hu⟩ := hbad
      rcases List.mem_cons.mp hm with heq | hmem
      · injection heq with h1 h2
        subst h1
        injection h2 with h2 h3
        subst h2
        subst h3
        rw [hl] at hlu
        injection hlu with h4
        omega
      · exact ⟨g, lo', hi', u, hmem, hlu, hu⟩
    · exact ⟨f, v, by rw [encodeFields_cons_overflow hl (by omega)]⟩

/-- Claim C4: for every spec, when every declared field is assigned,
encoding fails with the field-overflow ValueError whenever some assigned
value reaches 2^width, and succeeds whenever every assigned value is
below its field's width bound — the width check is the only range
check. -/
theorem c4_width_enforcement (spec : InstructionSpec) (_hs : spec ∈ COMMAND_SPECS)
    (values : List (List Char × Nat))
    (hall : ∀ f ∈ spec.fields, (values.lookup f.1).isSome = true) :
    ((∃ f lo hi v, (f, lo, hi) ∈ spec.fields ∧ values.lookup f = some v ∧
        2 ^ (hi - lo + 1) ≤ v) →
      ∃ f x, encode_instruction spec values = .error (.fieldOverflow f x))
    ∧ ((∀ f lo hi, (f, lo, hi) ∈ spec.fields → ∀ v, values.lookup f = some v →
        v < 2 ^ (hi - lo + 1)) →
      ∃ w, encode_instruction spec values = .ok w) := by
  have hall' : ∀ f lo hi, (f, lo, hi) ∈ spec.fields → ∃ v, values.lookup f = some v := by
    intro f lo hi hm
    have := hall (f, lo, hi) hm
    exact Option.isSome_iff_exists.mp this
  constructor
  · intro hbad
    exact encodeFields_overflow_of_outOfRange spec.fields values 0 hall' hbad
  · intro hgood
    apply encodeFields_ok_of_inRange
    intro f lo hi hm
    obtain ⟨v, hv⟩ := hall' f lo hi hm
    exact ⟨v, hv, hgood f lo hi hm v hv⟩

/-- Witness for c4_width_enforcement: the LOAD_CONST C field overflows at
2^28 and encodes at 2^28 - 1. -/
theorem c4_width_enforcement_witness :
    (∃ f x, encode_instruction LOAD_CONST [(kA, 57), (kB, 0), (kC, 268435456)] =
      .error (.fieldOverflow f x))
    ∧ (∃ w, encode_instruction LOAD_CONST [(kA, 57), (kB, 0), (kC, 268435455)] = .ok w) := by
  constructor
  · exact (c4_width_enforcement LOAD_CONST (by decide) _ (by decide)).1
      ⟨kC, 20, 47, 268435456, by decide, by rfl, by norm_num⟩
  · refine (c4_width_enforcement LOAD_CONST (by decide) _ (by decide)).2 ?_
    intro f lo hi hm v hv
    simp [LOAD_CONST] at hm
    rcases hm with ⟨rfl, rfl, rfl⟩ | ⟨rfl, rfl, rfl⟩ | ⟨rfl, rfl, rfl⟩
    · rw [show ([(kA, 57), (kB, 0), (kC, 268435455)] :
        List (List Char × Nat)).lookup kA = some 57 from rfl] at hv
      injection hv with hv
      omega
    · rw [show ([(kA, 57), (kB, 0), (kC, 268435455)] :
        List (List Char × Nat)).lookup kB = some 0 from rfl] at hv
      injection hv with hv
      omega
    · rw [show ([(kA, 57), (kB, 0), (kC, 268435455)] :
        List (List Char × Nat)).lookup kC = some 268435455 from rfl] at hv
      injection hv with hv
      omega

/-- Python dict read `d[k]`: the value, or KeyError when absent. -/
def dictGet (d : List (List Char × Nat)) (k : List Char) : Except PyError Nat :=
  match d.lookup k with
  | some v => .ok v
  | none => .error .keyError

/-- Python list read `registers[i]`: the element, or IndexError when the
index is out of range (indices here are nonnegative). -/
def getReg (registers : List Nat) (i : Nat) : Except PyError Nat :=
  match registers[i]? with
  | some v => .ok v
  | none => .error .indexError

/-- Python list write `registers[i] = v`: the updated list, or IndexError
when the index is out of range. -/
def setReg (registers : List Nat) (i : Nat) (v : Nat) : Except PyError (List Nat) :=
  if i < registers.length then .ok (registers.set i v) else .error .indexError

/-- One iteration of the execute loop of `interpret` (src/PR3.py lines
157-165): dispatch on the decoded spec's code; 57 stores the C field
value at index B, 46 copies register C to register B, 11 copies register
B to register C, and any other code (ROR's 10) leaves the register file
untouched.  Sub-expressions are evaluated in Python's order (assignment
right-hand side before the target subscript). -/
def execStep (registers : List Nat) (p : InstructionSpec) (op : List (List Char × Nat)) :
    Except PyError (List Nat) :=
  if p.code = 57 then do
    let c ← dictGet op kC
    let b ← dictGet op kB
    setReg registers b c
  else if p.code = 46 then do
    let c ← dictGet op kC
    let v ← getReg registers c
    let b ← dictGet op kB
    setReg registers b v
  else if p.code = 11 then do
    let b ← dictGet op kB
    let v ← getReg registers b
    let c ← dictGet op kC
    setReg registers c v
  else .ok registers

/-- The execute pass of `interpret`: fold `execStep` over the decoded
program in order, threading the register file. -/
def execProgram : List (InstructionSpec × List (List Char × Nat)) → List Nat →
    Except PyError (List Nat)
  | [], registers => .ok registers
  | (p, op) :: rest, registers => do
    let r ← execStep registers p op
    execProgram rest r

/-- REGISTER_COUNT many zero registers: `registers = [0]*2048`. -/
def initRegisters : List Nat := List.replicate 2048 0

/-- Claim C2: the execute pass processes the decoded program strictly in
order (one instruction at a time, threading the register file), and for
every register file state: code 57 sets registers[B] to the field value
C, code 46 sets registers[B] to registers[C], and code 11 sets
registers[C] to registers[B] (B the source, C the destination). -/
theorem c2_execute_semantics :
    (∀ (i : InstructionSpec × List (List Char × Nat)) rest registers,
      execProgram (i :: rest) registers = do
        let r ← execStep registers i.1 i.2
        execProgram rest r)
    ∧ (∀ registers (p : InstructionSpec) op b c, p.code = 57 →
        op.lookup kB = some b → op.lookup kC = some c → b < registers.length →
        execStep registers p op = .ok (registers.set b c))
    ∧ (∀ registers (p : InstructionSpec) op b c v, p.code = 46 →
        op.lookup kB = some b → op.lookup kC = some c →
        registers[c]? = some v → b < registers.length →
        execStep registers p op = .ok (registers.set b v))
    ∧ (∀ registers (p : InstructionSpec) op b c v, p.code = 11 →
        op.lookup kB = some b → op.lookup kC = some c →
        registers[b]? = some v → c < registers.length →
        execStep registers p op = .ok (registers.set c v)) := by
  refine ⟨fun i rest registers => rfl, ?_, ?_, ?_⟩
  · intro registers p op b c hcode hb hc hblt
    simp [execStep, hcode, dictGet, hb, hc, setReg, hblt, Bind.bind, Except.bind]
  · intro registers p op b c v hcode hb hc hv hblt
    simp [execStep, hcode, dictGet, hb, hc, getReg, hv, setReg, hblt, Bind.bind, Except.bind]
  · intro registers p op b c v hcode hb hc hv hclt
    simp [execStep, hcode, dictGet, hb, hc, getReg, hv, setReg, hclt, Bind.bind, Except.bind]

/-- Witness for c2_execute_semantics: all three opcode semantics at
concrete small register files. -/
theorem c2_execute_semantics_witness :
    execStep [0, 1, 2] LOAD_CONST [(kA, 57), (kB, 1), (kC, 9)] = .ok [0, 9, 2]
    ∧ execStep [4, 5, 6] LOAD_MEM [(kA, 46), (kB, 0), (kC, 2)] = .ok [6, 5, 6]
    ∧ execStep [7, 8, 9] STORE_MEM [(kA, 11), (kB, 0), (kC, 2)] = .ok [7, 8, 7] := by
  refine ⟨?_, ?_, ?_⟩
  · have h := c2_execute_semantics.2.1 [0, 1, 2] LOAD_CONST
      [(kA, 57), (kB, 1), (kC, 9)] 1 9 rfl (by rfl) (by rfl) (by norm_num)
    simpa using h
  · have h := c2_execute_semantics.2.2.1 [4, 5, 6] LOAD_MEM
      [(kA, 46), (kB, 0), (kC, 2)] 0 2 6 rfl (by rfl) (by rfl) (by rfl) (by norm_num)
    simpa using h
  · have h := c2_execute_semantics.2.2.2 [7, 8, 9] STORE_MEM
      [(kA, 11), (kB, 0), (kC, 2)] 0 2 7 rfl (by rfl) (by rfl) (by rfl) (by norm_num)
    simpa using h

/-- Claim C8: executing a decoded instruction whose spec has code 10
(ROR) leaves every cell of the register file unchanged — the dispatch
chain has no case for it, so the state passes through untouched. -/
theorem c8_ror_noop (registers : List Nat) (p : InstructionSpec)
    (op : List (List Char × Nat)) (h : p.code = 10) :
    execStep registers p op = .ok registers := by
  simp [execStep, h]

/-- Witness for c8_ror_noop: a decoded ROR instruction on a concrete
register file. -/
theorem c8_ror_noop_witness :
    execStep [1, 2, 3] ROR [(kA, 10), (kB, 1), (kC, 2), (kD, 0), (kE, 0)] =
      .ok [1, 2, 3] :=
  c8_ror_noop [1, 2, 3] ROR [(kA, 10), (kB, 1), (kC, 2), (kD, 0), (kE, 0)] rfl

/-- Python `w.to_bytes(k, "little")`: the k little-endian base-256 digits
of w (the OverflowError check lives in save_binary). -/
def toBytesLE : Nat → Nat → List Nat
  | 0, _ => []
  | k + 1, n => n % 256 :: toBytesLE k (n / 256)

/-- Python `int.from_bytes(data, byteorder="little", signed=False)`. -/
def fromLEBytes (l : List Nat) : Nat := l.foldr (fun b acc => b + 256 * acc) 0

/-- Python `save_binary`: write each word as its 8 little-endian bytes,
in program order; `to_bytes` raises OverflowError when a word does not
fit in 8 bytes. -/
def save_binary : List Nat → Except PyError (List Nat)
  | [] => .ok []
  | w :: rest =>
    if w < 256 ^ 8 then
      match save_binary rest with
      | .ok bs => .ok (toBytesLE 8 w ++ bs)
      | .error e => .error e
    else .error .overflowError

/-- Python `load_binary`: repeatedly read 8 bytes; stop at end of input,
fail with the truncation ValueError when 1-7 bytes remain, otherwise
parse a little-endian word and continue. -/
def load_binary (bytes : List Nat) : Except PyError (List Nat) :=
  if _h0 : bytes = [] then .ok []
  else if _h8 : 8 ≤ bytes.length then
    match load_binary (bytes.drop 8) with
    | .ok rest => .ok (fromLEBytes (bytes.take 8) :: rest)
    | .error e => .error e
  else .error .truncatedWord
termination_by bytes.length
decreasing_by simp; omega

/-- toBytesLE always produces exactly k bytes. -/
theorem toBytesLE_length : ∀ k n, (toBytesLE k n).length = k
  | 0, _ => rfl
  | k + 1, n => by simp [toBytesLE, toBytesLE_length k]

/-- Parsing the little-endian bytes of a word that fits recovers it. -/
theorem fromLEBytes_toBytesLE : ∀ k n, n < 256 ^ k →
    fromLEBytes (toBytesLE k n) = n
  | 0, n, h => by
    simp [toBytesLE, fromLEBytes]
    omega
  | k + 1, n, h => by
    have hdiv : n / 256 < 256 ^ k := by
      rw [Nat.div_lt_iff_lt_mul (by norm_num)]
      calc n < 256 ^ (k + 1) := h
      _ = 256 ^ k * 256 := by ring
    simp only [toBytesLE, fromLEBytes, List.foldr_cons]
    have := fromLEBytes_toBytesLE k (n / 256) hdiv
    simp only [fromLEBytes] at this
    rw [this]
    omega

/-- Helper for C6: the framing dichotomy by strong induction on the
byte-list length. -/
theorem load_binary_framing_aux : ∀ n (bytes : List Nat), bytes.length = n →
    (bytes.length % 8 = 0 → ∃ program, load_binary bytes = .ok program)
    ∧ (bytes.length % 8 ≠ 0 → load_binary bytes = .error .truncatedWord) := by
  intro n
  induction n using Nat.strong_induction_on with
  | _ n ih =>
    intro bytes hlen
    by_cases h0 : bytes = []
    · subst h0
      refine ⟨fun _ => ⟨[], by simp [load_binary]⟩, fun hmod => absurd rfl hmod⟩
    · have hpos : 0 < bytes.length := List.length_pos.mpr h0
      by_cases h8 : 8 ≤ bytes.length
      · have hdl : (bytes.drop 8).length = bytes.length - 8 := by simp
        have hrec := ih (bytes.length - 8) (by omega) (bytes.drop 8) (by omega)
        constructor
        · intro hmod
          obtain ⟨p, hp⟩ := hrec.1 (by omega)
          unfold load_binary
          rw [dif_neg h0, dif_pos h8, hp]
          exact ⟨_, rfl⟩
        · intro hmod
          unfold load_binary
          rw [dif_neg h0, dif_pos h8, hrec.2 (by omega)]
      · refine ⟨fun hmod => absurd hmod (by omega), fun _ => ?_⟩
        unfold load_binary
        rw [dif_neg h0, dif_neg h8]

/-- Claim C6: loading a binary byte stream fails with the truncation
framing ValueError exactly when its length is not a multiple of 8, and
yields a word list (never a silently truncated one) exactly when it
is. -/
theorem c6_framing (bytes : List Nat) :
    (bytes.length % 8 = 0 → ∃ program, load_binary bytes = .ok program)
    ∧ (bytes.length % 8 ≠ 0 → load_binary bytes = .error .truncatedWord) :=
  load_binary_framing_aux bytes.length bytes rfl

/-- Witness for c6_framing: 8 bytes load; 3 bytes are a framing error. -/
theorem c6_framing_witness :
    (∃ program, load_binary [0, 0, 0, 0, 0, 0, 0, 0] = .ok program)
    ∧ load_binary [1, 2, 3] = .error .truncatedWord :=
  ⟨(c6_framing [0, 0, 0, 0, 0, 0, 0, 0]).1 (by norm_num),
   (c6_framing [1, 2, 3]).2 (by norm_num)⟩

/-- Claim C7: saving any sequence of 64-bit words as 8-byte little-endian
frames and reloading it yields exactly the same sequence. -/
theorem c7_save_load_roundtrip (program : List Nat)
    (h : ∀ w ∈ program, w < 256 ^ 8) :
    ∃ bytes, save_binary program = .ok bytes ∧ load_binary bytes = .ok program := by
  induction program with
  | nil => exact ⟨[], rfl, by simp [load_binary]⟩
  | cons w rest ih =>
    obtain ⟨bs, hs, hl⟩ := ih (fun x hx => h x (by simp [hx]))
    have hw : w < 256 ^ 8 := h w (by simp)
    refine ⟨toBytesLE 8 w ++ bs, ?_, ?_⟩
    · simp only [save_binary, hs]
      rw [if_pos hw]
    · have hne : toBytesLE 8 w ++ bs ≠ [] := by
        apply List.ne_nil_of_length_pos
        simp [toBytesLE_length]
      have hlen : 8 ≤ (toBytesLE 8 w ++ bs).length := by
        simp [toBytesLE_length]
      have htake : (toBytesLE 8 w ++ bs).take 8 = toBytesLE 8 w :=
        List.take_left' (toBytesLE_length 8 w)
      have hdrop : (toBytesLE 8 w ++ bs).drop 8 = bs :=
        List.drop_left' (toBytesLE_length 8 w)
      unfold load_binary
      rw [dif_neg hne, dif_pos hlen, hdrop, hl, htake, fromLEBytes_toBytesLE 8 w hw]

/-- Witness for c7_save_load_roundtrip on a two-word program. -/
theorem c7_save_load_roundtrip_witness :
    ∃ bytes, save_binary [1048633, 46] = .ok bytes ∧
      load_binary bytes = .ok [1048633, 46] :=
  c7_save_load_roundtrip [1048633, 46] (by decide)

/-- Python `str.strip()`: drop whitespace from both ends. -/
def pyStrip (s : List Char) : List Char :=
  ((s.dropWhile Char.isWhitespace).reverse.dropWhile Char.isWhitespace).reverse

/-- Python `str.split(sep)` for a single-character separator: split at
every occurrence, keeping empty pieces. -/
def splitOnChar (c : Char) : List Char → List (List Char)
  | [] => [[]]
  | x :: xs =>
    match splitOnChar c xs with
    | [] => [[]]
    | r :: rs => if x = c then [] :: r :: rs else (x :: r) :: rs

/-- Decimal value of a digit string, most significant digit first. -/
def digitsToNat (l : List Char) : Nat := l.foldl (fun a c => 10 * a + (c.toNat - 48)) 0

/-- Python `int(val)` on the nonnegative decimal literals this format
uses: strip whitespace, then require at least one digit and nothing but
digits; anything else raises ValueError.  (Signs, underscores and
non-decimal notations are outside the behaviours exercised here.) -/
def pyInt (s : List Char) : Except PyError Nat :=
  let t := pyStrip s
  if t.isEmpty then .error .valueError
  else if t.all Char.isDigit then .ok (digitsToNat t) else .error .valueError

/-- Python dict write `d[k] = v`: replace in place when the key exists,
else append a new entry (CPython insertion-order semantics). -/
def dictSet : List (List Char × Nat) → List Char → Nat → List (List Char × Nat)
  | [], k, v => [(k, v)]
  | (k2, v2) :: rest, k, v =>
    if k2 = k then (k, v) :: rest else (k2, v2) :: dictSet rest k v

/-- The token loop of `parse_csv_program` (src/PR3.py lines 96-100):
consume tokens left to right; stop at the first token without "=" and
return the fields accumulated so far; otherwise split at "=", requiring
exactly two pieces (ValueError from tuple unpacking otherwise), parse
the value as an int, and store it under the stripped key. -/
def parseFields : List (List Char) → List (List Char × Nat) →
    Except PyError (List (List Char × Nat))
  | [], fields => .ok fields
  | part :: rest, fields =>
    if part.contains '=' then
      match splitOnChar '=' part with
      | [key, val] =>
        match pyInt val with
        | .ok n => parseFields rest (dictSet fields (pyStrip key) n)
        | .error e => .error e
      | _ => .error .valueError
    else .ok fields

/-- One row of `parse_csv_program`: resolve the stripped mnemonic in
COMMANDS (KeyError when unknown), seed the field dict with
A := spec.code, run the token loop, and encode. -/
def parse_row (row : List (List Char)) : Except PyError Nat :=
  match row with
  | [] => .error .indexError
  | op :: parts =>
    match COMMANDS.lookup (pyStrip op) with
    | none => .error .keyError
    | some spec =>
      match parseFields parts [(kA, spec.code)] with
      | .ok fields => encode_instruction spec fields
      | .error e => .error e

/-- Python `parse_csv_program`: encode each tokenized row in order,
aborting on the first failure. -/
def parse_csv_program : List (List (List Char)) → Except PyError (List Nat)
  | [] => .ok []
  | row :: rows =>
    match parse_row row with
    | .ok w =>
      match parse_csv_program rows with
      | .ok ws => .ok (w :: ws)
      | .error e => .error e
    | .error e => .error e

/-- Helper for C9: everything after the first non-assignment token is
ignored — the token loop gives the same result whatever follows it. -/
theorem parseFields_ignores_tail (t : List Char) (ht : t.contains '=' = false) :
    ∀ (pre : List (List Char)) (rest rest2 : List (List Char)) acc,
    parseFields (pre ++ t :: rest) acc = parseFields (pre ++ t :: rest2) acc := by
  intro pre
  induction pre with
  | nil =>
    intro rest rest2 acc
    simp only [List.nil_append, parseFields, ht]
    rw [if_neg (by simp [ht])]
    rw [if_neg (by simp [ht])]
  | cons p pre ih =>
    intro rest rest2 acc
    simp only [List.cons_append, parseFields]
    by_cases hp : p.contains '='
    · rw [if_pos hp, if_pos hp]
      rcases hsp : splitOnChar '=' p with _ | ⟨key, _ | ⟨val, _ | ⟨z, zs⟩⟩⟩
      all_goals try rfl
      rcases hi : pyInt val with e | n <;> simp only [hi]
      exact ih rest rest2 (dictSet acc (pyStrip key) n)
    · rw [if_neg hp, if_neg hp]

/-- Claim C9: field tokens are consumed left-to-right only while each
contains "="; the first token without "=" ends the field list and the
remainder of the row is ignored; field A is seeded with the resolved
spec's code before the tokens are read and the row is encoded from the
resulting dict; and the output word sequence preserves row order. -/
theorem c9_row_parsing :
    (∀ (t : List Char) rest acc, t.contains '=' = false →
      parseFields (t :: rest) acc = .ok acc)
    ∧ (∀ (t : List Char) pre rest rest2 acc, t.contains '=' = false →
      parseFields (pre ++ t :: rest) acc = parseFields (pre ++ t :: rest2) acc)
    ∧ (∀ (part : List Char) rest acc key val n, part.contains '=' = true →
      splitOnChar '=' part = [key, val] → pyInt val = .ok n →
      parseFields (part :: rest) acc = parseFields rest (dictSet acc (pyStrip key) n))
    ∧ (∀ (op : List Char) parts spec fields,
      COMMANDS.lookup (pyStrip op) = some spec →
      parseFields parts [(kA, spec.code)] = .ok fields →
      parse_row (op :: parts) = encode_instruction spec fields)
    ∧ (∀ row rows w ws, parse_row row = .ok w → parse_csv_program rows = .ok ws →
      parse_csv_program (row :: rows) = .ok (w :: ws)) := by
  refine ⟨?_, ?_, ?_, ?_, ?_⟩
  · intro t rest acc ht
    simp only [parseFields]
    rw [if_neg (by rw [ht]; exact Bool.false_ne_true)]
  · intro t pre rest rest2 acc ht
    exact parseFields_ignores_tail t ht pre rest rest2 acc
  · intro part rest acc key val n hpart hsplit hint
    simp only [parseFields, hsplit, hint]
    rw [if_pos hpart]
  · intro op parts spec fields hop hfields
    simp only [parse_row, hop, hfields]
  · intro row rows w ws hw hws
    simp only [parse_csv_program, hw, hws]

/-- Witness for c9_row_parsing: concrete instances of all five parts —
stopping at a non-assignment token, ignoring the remainder, consuming an
assignment, seeding A from the spec, and preserving row order. -/
theorem c9_row_parsing_witness :
    parseFields [chars ("halt"), chars ("B=9")] [(kA, 57)] = .ok [(kA, 57)]
    ∧ parseFields [chars ("B=1"), chars ("x"), chars ("B=2")] [(kA, 57)] =
      parseFields [chars ("B=1"), chars ("x"), chars ("C=3")] [(kA, 57)]
    ∧ parseFields [chars ("B=5"), chars ("C=7")] [(kA, 57)] =
      parseFields [chars ("C=7")] (dictSet [(kA, 57)] (chars ("B")) 5)
    ∧ parse_row [chars ("LOAD_CONST"), chars ("B=5"), chars ("C=7")] =
      encode_instruction LOAD_CONST [(kA, 57), (kB, 5), (kC, 7)]
    ∧ parse_csv_program [[chars ("STORE_MEM"), chars ("B=5"), chars ("C=9")],
        [chars ("LOAD_MEM"), chars ("B=1"), chars ("C=2")]] = .ok [9437515, 2097262] := by
  refine ⟨?_, ?_, ?_, ?_, ?_⟩
  · exact c9_row_parsing.1 (chars ("halt")) [chars ("B=9")] [(kA, 57)] (by decide)
  · exact c9_row_parsing.2.1 (chars ("x")) [chars ("B=1")] [chars ("B=2")]
      [chars ("C=3")] [(kA, 57)] (by decide)
  · exact c9_row_parsing.2.2.1 (chars ("B=5")) [chars ("C=7")] [(kA, 57)]
      (chars ("B")) (chars ("5")) 5 (by decide) (by decide) (by decide)
  · exact c9_row_parsing.2.2.2.1 (chars ("LOAD_CONST")) [chars ("B=5"), chars ("C=7")]
      LOAD_CONST [(kA, 57), (kB, 5), (kC, 7)] (by decide) (by decide)
  · exact c9_row_parsing.2.2.2.2 [chars ("STORE_MEM"), chars ("B=5"), chars ("C=9")]
      [[chars ("LOAD_MEM"), chars ("B=1"), chars ("C=2")]] 9437515 [2097262]
      (by decide) (by decide)

/-- Any successfully decoded instruction assigns its B and C fields. -/
theorem decode_fields_lookup {w : Nat} {i : InstructionSpec × List (List Char × Nat)}
    (h : decode_instruction w = .ok i) :
    (∃ b, i.2.lookup kB = some b) ∧ (∃ c, i.2.lookup kC = some c) := by
  simp only [decode_instruction] at h
  rcases hf : COMMAND_SPECS.find? (fun s => s.code == w &&& 63) with _ | spec
  · rw [hf] at h
    exact absurd h (by simp)
  · rw [hf] at h
    injection h with h
    subst h
    have hmem : spec ∈ COMMAND_SPECS := List.mem_of_find?_eq_some hf
    have hs : spec = LOAD_CONST ∨ spec = LOAD_MEM ∨ spec = STORE_MEM ∨ spec = ROR := by
      simpa [COMMAND_SPECS, COMMANDS] using hmem
    rcases hs with rfl | rfl | rfl | rfl <;> exact ⟨⟨_, rfl⟩, ⟨_, rfl⟩⟩

/-- Any successfully decoded instruction carries one of the four specs. -/
theorem decode_spec_mem {w : Nat} {i : InstructionSpec × List (List Char × Nat)}
    (h : decode_instruction w = .ok i) : i.1 ∈ COMMAND_SPECS := by
  simp only [decode_instruction] at h
  rcases hf : COMMAND_SPECS.find? (fun s => s.code == w &&& 63) with _ | spec
  · rw [hf] at h
    exact absurd h (by simp)
  · rw [hf] at h
    injection h with h
    subst h
    exact List.mem_of_find?_eq_some hf

/-- Safety of one execute step: on a full-size register file, a decoded
instruction whose B and C values are below 2048 executes without an
IndexError and preserves the register count. -/
theorem execStep_ok_of_small {registers : List Nat} (hlen : registers.length = 2048)
    {p : InstructionSpec} {op : List (List Char × Nat)}
    (hdec : ∃ w, decode_instruction w = .ok (p, op))
    (hB : ∀ v, op.lookup kB = some v → v < 2048)
    (hC : ∀ v, op.lookup kC = some v → v < 2048) :
    ∃ r, execStep registers p op = .ok r ∧ r.length = 2048 := by
  obtain ⟨w, hw⟩ := hdec
  obtain ⟨⟨b, hb⟩, ⟨c, hc⟩⟩ := decode_fields_lookup hw
  have hblt : b < 2048 := hB b hb
  have hclt : c < 2048 := hC c hc
  have hmem := decode_spec_mem hw
  have hs : p = LOAD_CONST ∨ p = LOAD_MEM ∨ p = STORE_MEM ∨ p = ROR := by
    simpa [COMMAND_SPECS, COMMANDS] using hmem
  obtain ⟨cv, hcv⟩ : ∃ v, registers[c]? = some v :=
    ⟨_, List.getElem?_eq_getElem (by omega)⟩
  obtain ⟨bv, hbv⟩ : ∃ v, registers[b]? = some v :=
    ⟨_, List.getElem?_eq_getElem (by omega)⟩
  rcases hs with rfl | rfl | rfl | rfl
  · refine ⟨registers.set b c, ?_, by simpa using hlen⟩
    simp [execStep, LOAD_CONST, dictGet, hb, hc, setReg, Bind.bind, Except.bind, hlen, hblt]
  · refine ⟨registers.set b cv, ?_, by simpa using hlen⟩
    simp [execStep, LOAD_MEM, dictGet, hb, hc, getReg, hcv, setReg, Bind.bind,
      Except.bind, hlen, hblt]
  · refine ⟨registers.set c bv, ?_, by simpa using hlen⟩
    simp [execStep, STORE_MEM, dictGet, hb, hc, getReg, hbv, setReg, Bind.bind,
      Except.bind, hlen, hclt]
  · exact ⟨registers, by simp [execStep, ROR], hlen⟩

/-- Safety of the execute pass, by induction over the decoded program. -/
theorem execProgram_ok_of_small :
    ∀ (prog : List (InstructionSpec × List (List Char × Nat))) (registers : List Nat),
    registers.length = 2048 →
    (∀ i ∈ prog, (∃ w, decode_instruction w = .ok i) ∧
      (∀ v, i.2.lookup kB = some v → v < 2048) ∧
      (∀ v, i.2.lookup kC = some v → v < 2048)) →
    ∃ r, execProgram prog registers = .ok r
  | [], registers, _, _ => ⟨registers, rfl⟩
  | (p, op) :: rest, registers, hlen, h => by
    obtain ⟨hdec, hB, hC⟩ := h (p, op) (by simp)
    obtain ⟨r, hr, hrlen⟩ := execStep_ok_of_small hlen hdec hB hC
    obtain ⟨r2, hr2⟩ := execProgram_ok_of_small rest r hrlen
      (fun i hi => h i (by simp [hi]))
    exact ⟨r2, by simp [execProgram, hr, hr2, Bind.bind, Except.bind]⟩

/-- Claim C10 as stated is false: the C field of LOAD_CONST spans bits
20-47 and so is 28 bits wide, not 14. -/
theorem c10_counterexample :
    ¬ (∀ spec ∈ COMMAND_SPECS, ∀ f ∈ spec.fields,
      (f.1 = kB ∨ f.1 = kC) → f.2.2 - f.2.1 + 1 = 14) := by decide

/-- C10 (amended): every B field is 14 bits wide, every C field is 14
bits wide except LOAD_CONST's 28-bit immediate, and the register file has
2048 entries; consequently a decoded program whose executed B and C
values are all below 2048 runs with every register access in bounds,
while there is a validly encoded, decodable program (LOAD_CONST with
B = 2048) whose execution indexes the register file out of range and
fails with an IndexError. -/
theorem c10_register_bounds :
    (∀ spec ∈ COMMAND_SPECS, ∀ f ∈ spec.fields, f.1 = kB → f.2.2 - f.2.1 + 1 = 14)
    ∧ (∀ spec ∈ COMMAND_SPECS, ∀ f ∈ spec.fields, f.1 = kC →
        f.2.2 - f.2.1 + 1 = (if spec = LOAD_CONST then 28 else 14))
    ∧ initRegisters.length = 2048
    ∧ (∀ (prog : List (InstructionSpec × List (List Char × Nat))),
        (∀ i ∈ prog, (∃ w, decode_instruction w = .ok i) ∧
          (∀ v, i.2.lookup kB = some v → v < 2048) ∧
          (∀ v, i.2.lookup kC = some v → v < 2048)) →
        ∃ r, execProgram prog initRegisters = .ok r)
    ∧ (∃ w i, encode_instruction LOAD_CONST [(kA, 57), (kB, 2048), (kC, 0)] = .ok w ∧
        decode_instruction w = .ok i ∧
        execProgram [i] initRegisters = .error .indexError) := by
  refine ⟨by decide, by decide, by simp [initRegisters], ?_, ?_⟩
  · intro prog h
    exact execProgram_ok_of_small prog initRegisters (by simp [initRegisters]) h
  · refine ⟨131129, (LOAD_CONST, [(kA, 57), (kB, 2048), (kC, 0)]), by decide, by decide, ?_⟩
    have hset : setReg initRegisters 2048 0 = .error .indexError := by
      unfold setReg
      rw [if_neg (by simp [initRegisters])]
    have hlc : List.lookup kC [(kA, 57), (kB, 2048), (kC, 0)] = some 0 := rfl
    have hlb : List.lookup kB [(kA, 57), (kB, 2048), (kC, 0)] = some 2048 := rfl
    simp [execProgram, execStep, LOAD_CONST, dictGet, hlc, hlb, hset, Bind.bind,
      Except.bind]

/-- Witness for c10_register_bounds: a one-instruction in-bounds program
executes successfully. -/
theorem c10_register_bounds_witness :
    ∃ r, execProgram [(LOAD_CONST, [(kA, 57), (kB, 5), (kC, 100)])] initRegisters =
      .ok r := by
  apply c10_register_bounds.2.2.2.1
  intro i hi
  simp only [List.mem_singleton] at hi
  subst hi
  refine ⟨⟨104857977, by decide⟩, ?_, ?_⟩
  · intro v hv
    rw [show List.lookup kB [(kA, 57), (kB, 5), (kC, 100)] = some 5 from rfl] at hv
    injection hv with hv
    omega
  · intro v hv
    rw [show List.lookup kC [(kA, 57), (kB, 5), (kC, 100)] = some 100 from rfl] at hv
    injection hv with hv
    omega

/-- Uppercase hexadecimal digit character, as Python "%X" renders. -/
def hexChar (n : Nat) : Char :=
  if n < 10 then Char.ofNat (48 + n) else Char.ofNat (55 + n)

/-- Little-endian list of the minimal uppercase hex digits of n (empty
for zero). -/
def toHexRev (n : Nat) : List Char :=
  if h : n = 0 then [] else hexChar (n % 16) :: toHexRev (n / 16)
termination_by n
decreasing_by exact Nat.div_lt_self (Nat.pos_of_ne_zero h) (by norm_num)

/-- Python `f"{w:016X}"`: the minimal uppercase hex rendering of w (one
digit for zero), left-padded with zeros to at least 16 characters. -/
def pyHexPad (width : Nat) (n : Nat) : List Char :=
  let ds := if n = 0 then [('0' : Char)] else (toHexRev n).reverse
  List.replicate (width - ds.length) ('0' : Char) ++ ds

/-- The byte-token loop of the diagnostic branch of `assembly`
(src/PR3.py lines 137-140): repeatedly take the last two characters of
the remaining hex string (Python `inbytes[-2:]`, a single character for
an odd-length remainder), prefix "0x", and collect — modelled on the
reversed character list. -/
def dumpTokensRev : List Char → List (List Char)
  | [] => []
  | [c] => [['0', 'x', c]]
  | c1 :: c2 :: rest => ['0', 'x', c2, c1] :: dumpTokensRev rest

/-- The diagnostic dump of one assembled word: the byte tokens in the
order the `for byte in inbyteslist` loop prints them on one line. -/
def dump_word (w : Nat) : List (List Char) :=
  dumpTokensRev (pyHexPad 16 w).reverse

/-- The byte dump lines of the diagnostic mode: one line per assembled
instruction, in program order. -/
def assembly_dump_lines (program : List Nat) : List (List (List Char)) :=
  program.map dump_word

/-- The "0xHH" rendering of one byte value. -/
def byteToken (b : Nat) : List Char := ['0', 'x', hexChar (b / 16), hexChar (b % 16)]

/-- Spec-side reading of the claim: the word's eight bytes rendered
most-significant byte first. -/
def msbFirstTokens (w : Nat) : List (List Char) :=
  [byteToken (w / 72057594037927936 % 256), byteToken (w / 281474976710656 % 256),
   byteToken (w / 1099511627776 % 256), byteToken (w / 4294967296 % 256),
   byteToken (w / 16777216 % 256), byteToken (w / 65536 % 256),
   byteToken (w / 256 % 256), byteToken (w % 256)]

/-- The word's eight bytes rendered least-significant byte first. -/
def lsbFirstTokens (w : Nat) : List (List Char) :=
  [byteToken (w % 256), byteToken (w / 256 % 256), byteToken (w / 65536 % 256),
   byteToken (w / 16777216 % 256), byteToken (w / 4294967296 % 256),
   byteToken (w / 1099511627776 % 256), byteToken (w / 281474976710656 % 256),
   byteToken (w / 72057594037927936 % 256)]

/-- Fixed-width little-endian hex digit list: exactly k digits. -/
def fuelHexRev : Nat → Nat → List Char
  | 0, _ => []
  | k + 1, n => hexChar (n % 16) :: fuelHexRev k (n / 16)

/-- Full evaluation of the 16-digit little-endian hex expansion. -/
theorem fuelHexRev_16 (w : Nat) : fuelHexRev 16 w =
    [hexChar (w % 16),
     hexChar (w / 16 % 16),
     hexChar (w / 16 / 16 % 16),
     hexChar (w / 16 / 16 / 16 % 16),
     hexChar (w / 16 / 16 / 16 / 16 % 16),
     hexChar (w / 16 / 16 / 16 / 16 / 16 % 16),
     hexChar (w / 16 / 16 / 16 / 16 / 16 / 16 % 16),
     hexChar (w / 16 / 16 / 16 / 16 / 16 / 16 / 16 % 16),
     hexChar (w / 16 / 16 / 16 / 16 / 16 / 16 / 16 / 16 % 16),
     hexChar (w / 16 / 16 / 16 / 16 / 16 / 16 / 16 / 16 / 16 % 16),
     hexChar (w / 16 / 16 / 16 / 16 / 16 / 16 / 16 / 16 / 16 / 16 % 16),
     hexChar (w / 16 / 16 / 16 / 16 / 16 / 16 / 16 / 16 / 16 / 16 / 16 % 16),
     hexChar (w / 16 / 16 / 16 / 16 / 16 / 16 / 16 / 16 / 16 / 16 / 16 / 16 % 16),
     hexChar (w / 16 / 16 / 16 / 16 / 16 / 16 / 16 / 16 / 16 / 16 / 16 / 16 / 16 % 16),
     hexChar (w / 16 / 16 / 16 / 16 / 16 / 16 / 16 / 16 / 16 / 16 / 16 / 16 / 16 / 16 % 16),
     hexChar (w / 16 / 16 / 16 / 16 / 16 / 16 / 16 / 16 / 16 / 16 / 16 / 16 / 16 / 16 / 16 % 16)] := rfl

/-- The fixed-width expansion is the minimal expansion padded with zero
digits, whenever the value fits in k digits. -/
theorem fuelHexRev_eq_toHexRev_pad : ∀ k n, n < 16 ^ k →
    fuelHexRev k n = toHexRev n ++ List.replicate (k - (toHexRev n).length) ('0')
  | 0, n, h => by
    have h0 : n = 0 := by omega
    subst h0
    rw [toHexRev]
    rfl
  | k + 1, n, h => by
    by_cases h0 : n = 0
    · subst h0
      have ih := fuelHexRev_eq_toHexRev_pad k 0 (Nat.pos_pow_of_pos k (by norm_num))
      rw [toHexRev] at ih ⊢
      simp only [dif_pos rfl] at ih ⊢
      simp only [fuelHexRev, ih]
      rfl
    · have e : toHexRev n = hexChar (n % 16) :: toHexRev (n / 16) := by
        rw [toHexRev]
        exact dif_neg h0
      have hdiv : n / 16 < 16 ^ k := by
        rw [Nat.div_lt_iff_lt_mul (by norm_num)]
        calc n < 16 ^ (k + 1) := h
        _ = 16 ^ k * 16 := by ring
      have ih := fuelHexRev_eq_toHexRev_pad k (n / 16) hdiv
      simp only [fuelHexRev, e, ih, List.length_cons, List.cons_append]
      have : k + 1 - ((toHexRev (n / 16)).length + 1) = k - (toHexRev (n / 16)).length := by
        omega
      rw [this]

/-- For values that fit, the Python 016X rendering is the reversed
16-digit little-endian expansion. -/
theorem pyHexPad_eq_fuel {w : Nat} (h : w < 16 ^ 16) :
    pyHexPad 16 w = (fuelHexRev 16 w).reverse := by
  by_cases h0 : w = 0
  · subst h0
    decide
  · rw [fuelHexRev_eq_toHexRev_pad 16 w h]
    simp only [pyHexPad, if_neg h0]
    rw [List.reverse_append, List.reverse_replicate, List.length_reverse]

/-- Workhorse for C3: the diagnostic dump of any 64-bit word is its
eight bytes, least-significant byte first. -/
theorem dump_word_eq_lsbFirst (w : Nat) (h : w < 2 ^ 64) :
    dump_word w = lsbFirstTokens w := by
  have h16 : w < 16 ^ 16 := by norm_num at h ⊢; exact h
  unfold dump_word
  rw [pyHexPad_eq_fuel h16, List.reverse_reverse, fuelHexRev_16]
  simp only [dumpTokensRev]
  simp only [Nat.div_div_eq_div_mul]
  norm_num [lsbFirstTokens, byteToken]
  refine ⟨?_, ?_, ?_, ?_, ?_, ?_, ?_, ?_⟩ <;> exact congrArg hexChar (by omega)

/-- Claim C3 as stated is false: the assembled LOAD_CONST word 1048633
(row LOAD_CONST,B=0,C=1) is dumped least-significant byte first, not
most-significant byte first. -/
theorem c3_dump_counterexample :
    parse_csv_program [[chars ("LOAD_CONST"), chars ("B=0"), chars ("C=1")]] =
      .ok [1048633]
    ∧ dump_word 1048633 ≠ msbFirstTokens 1048633 := by
  constructor
  · decide
  · rw [dump_word_eq_lsbFirst 1048633 (by norm_num)]
    decide

/-- C3 (amended): in diagnostic mode the assembler emits, for every
assembled 64-bit word, one line of exactly 8 hexadecimal byte tokens
"0xHH", space-separated, with the LEAST-significant byte of the word
printed first. -/
theorem c3_diagnostic_dump (program : List Nat) (h : ∀ w ∈ program, w < 2 ^ 64) :
    assembly_dump_lines program = program.map lsbFirstTokens
    ∧ ∀ line ∈ assembly_dump_lines program, line.length = 8 := by
  constructor
  · exact List.map_congr_left (fun w hw => dump_word_eq_lsbFirst w (h w hw))
  · intro line hline
    simp only [assembly_dump_lines, List.mem_map] at hline
    obtain ⟨w, hw, rfl⟩ := hline
    rw [dump_word_eq_lsbFirst w (h w hw)]
    rfl

/-- Witness for c3_diagnostic_dump on the one-word program 1048633. -/
theorem c3_diagnostic_dump_witness :
    assembly_dump_lines [1048633] = [1048633].map lsbFirstTokens
    ∧ ∀ line ∈ assembly_dump_lines [1048633], line.length = 8 :=
  c3_diagnostic_dump [1048633] (by norm_num)
